import Mathlib

/-!
Verification of the roster-graph analysis program (`src/main.rs`).

The program reads (player, team) records, builds an undirected graph whose
nodes are the distinct player names and whose edges connect every pair of
players sharing a team, then computes the number of connected components
(`petgraph::algo::connected_components`) and a closeness-centrality score per
node (`petgraph::algo::dijkstra` with unit edge cost, score
`(node_count - 1) / total_path_length`, or `0` when the distance sum is `0`).

Embedding choices:
* A petgraph `UnGraph<String, &str>` is a list of node weights (nodes are the
  indices `0, …, nodes.length - 1`, in insertion order) together with a list
  of edges, each an (unordered) pair of node indices.  Edge labels carry no
  information (always `"teammate"`) and are dropped.
* Rust `HashMap` iteration order is unspecified; the only place the program
  iterates a `HashMap` whose order affects the result is `team_map.values()`,
  which only permutes blocks of the edge list.  The model fixes the
  first-appearance order of teams; every property proved below is invariant
  under permuting those blocks.
* `f64` arithmetic is modelled exactly over `ℚ`: the operations performed
  (`node_count as f64 - 1.0`, one division) are exact for the graph sizes
  ever at issue in the claims, and all compared values (0, 1, 3, the bounds)
  are exactly representable.
* `petgraph::algo::dijkstra g v None |_| 1` returns, per its contract, the map
  from each node reachable from `v` to the length of a shortest path (unit
  weights), the source included at distance 0.  It is modelled by iterated
  frontier expansion (`reachSet`), which is proved below (see
  `dijkstraDist_eq_some_iff`) to compute exactly the least walk length.
* `petgraph::algo::connected_components` returns, per its contract, the number
  of connected components; it is modelled by counting the nodes that are
  minimal (in index order) in their reachability class, one per component.
-/

/-- Mirror of the Rust `struct Player` (the CSV field names are irrelevant to
the core; `read_data` is the external input collaborator and not modelled). -/
structure Player where
  player_name : String
  team : String
deriving DecidableEq, Repr

/-- First-occurrence deduplication: the fold performed by repeatedly doing
`indices.entry(k).or_insert_with(...)`, keeping the first occurrence of each
key in order of first appearance. -/
def firstOccur (l : List String) : List String :=
  l.foldl (fun acc x => if x ∈ acc then acc else acc ++ [x]) []

/-- The node-weight list built by the first loop of `create_graph`: one node
per distinct `player_name`, allocated at its first occurrence (petgraph node
indices are allocation-ordered, so node `i` is `nodeList players |>.get i`). -/
def nodeList (players : List Player) : List String :=
  firstOccur (players.map (·.player_name))

/-- A petgraph `UnGraph<String, &'static str>`: node weights in index order
plus the edge list (pairs of node indices; undirected, labels dropped). -/
structure Graph where
  nodes : List String
  edges : List (Nat × Nat)
deriving DecidableEq, Repr

/-- `graph.node_count()`. -/
def Graph.node_count (g : Graph) : Nat := g.nodes.length

/-- Well-formedness invariant of every real petgraph graph: every edge
endpoint is a valid node index (`add_edge` panics otherwise). -/
def Graph.WF (g : Graph) : Prop :=
  ∀ e ∈ g.edges, e.1 < g.node_count ∧ e.2 < g.node_count

instance (g : Graph) : Decidable g.WF := by
  unfold Graph.WF; infer_instance

/-- The team keys of the `team_map` built by the second loop of
`create_graph` (a `HashMap<String, Vec<NodeIndex>>`; the model lists them in
first-appearance order, see the header comment on `HashMap` order). -/
def teamKeys (players : List Player) : List String :=
  firstOccur (players.map (·.team))

/-- The member vector `team_map[t]`: for each record with team `t`, in record
order, the node index of its (already interned) player name. -/
def teamMembers (players : List Player) (ns : List String) (t : String) : List Nat :=
  (players.filter (fun p => p.team = t)).map (fun p => ns.indexOf p.player_name)

/-- The doubly nested edge loop: for `teammates = x :: xs`, one edge from `x`
to each later member, then recurse — exactly
`for (i, &t1) in teammates.iter().enumerate() { for &t2 in &teammates[i+1..] }`. -/
def cliqueEdges : List Nat → List (Nat × Nat)
  | [] => []
  | x :: xs => xs.map (fun y => (x, y)) ++ cliqueEdges xs

/-- Mirror of `create_graph`: intern nodes by first occurrence, group node
indices by team, emit a clique per team. -/
def create_graph (players : List Player) : Graph :=
  let ns := nodeList players
  { nodes := ns
    edges := ((teamKeys players).map
      (fun t => cliqueEdges (teamMembers players ns t))).flatten }

/-- The neighbor list of node `u`: every node sharing an edge with `u`
(either endpoint; the graph is undirected). -/
def neighbors (g : Graph) (u : Nat) : List Nat :=
  g.edges.foldr
    (fun e acc => if e.1 = u then e.2 :: acc else if e.2 = u then e.1 :: acc else acc) []

/-- Nodes reachable from `s` by a walk of length at most `k`: breadth-first
frontier expansion, the unit-weight specialisation of dijkstra's exploration. -/
def reachSet (g : Graph) (s : Nat) : Nat → Finset Nat
  | 0 => {s}
  | k + 1 =>
    reachSet g s k ∪ (reachSet g s k).biUnion (fun u => (neighbors g u).toFinset)

/-- `walkOfLen g s v k`: there is a walk of exactly `k` edges from `s` to `v`. -/
def walkOfLen (g : Graph) : Nat → Nat → Nat → Prop
  | s, v, 0 => s = v
  | s, v, k + 1 => ∃ u ∈ neighbors g s, walkOfLen g u v k

instance walkOfLen.instDec (g : Graph) : ∀ s v k, Decidable (walkOfLen g s v k)
  | _, _, 0 => by unfold walkOfLen; infer_instance
  | s, v, k + 1 => by
    unfold walkOfLen
    have : ∀ u, Decidable (walkOfLen g u v k) := fun u => walkOfLen.instDec g u v k
    exact List.decidableBEx _ _

/-- `v` is reachable from `s` in `g` (by a walk of some length). -/
def GraphReachable (g : Graph) (s v : Nat) : Prop := ∃ k, walkOfLen g s v k

/-- `d` is the shortest-path distance from `s` to `v` (unit edge weight):
a walk of length `d` exists and none shorter does. -/
def SPDist (g : Graph) (s v d : Nat) : Prop :=
  walkOfLen g s v d ∧ ∀ j, walkOfLen g s v j → d ≤ j

/-- Bounded linear search for the least `k' ≥ k` (within `fuel` steps) with
`v ∈ reachSet g s k'`. -/
def leastReach (g : Graph) (s v : Nat) : Nat → Nat → Option Nat
  | 0, _ => none
  | fuel + 1, k =>
    if v ∈ reachSet g s k then some k else leastReach g s v fuel (k + 1)

/-- The entry of the map returned by `dijkstra(graph, s, None, |_| 1)` at key
`v`: the least walk length when `v` is reachable, absent otherwise.  Frontier
expansion stabilises within `node_count` steps, so the search is complete. -/
def dijkstraDist (g : Graph) (s v : Nat) : Option Nat :=
  leastReach g s v (g.node_count + 1) 0

/-- `path_lengths.values().sum()`: the distances of the reachable nodes,
summed.  (For a well-formed graph every reachable node index is `<
node_count`, so ranging over `0, …, node_count - 1` enumerates every key of
the dijkstra map exactly once.) -/
def totalPathLength (g : Graph) (s : Nat) : Nat :=
  ((List.range g.node_count).filterMap (fun v => dijkstraDist g s v)).sum

/-- Mirror of `compute_closeness_centrality`: for each node, the unit-weight
dijkstra distance sum, then `(node_count - 1) / total` if `total > 0` else
`0` (exact rational arithmetic in place of `f64`, see header). -/
def compute_closeness_centrality (g : Graph) : List (Nat × ℚ) :=
  (List.range g.node_count).map (fun v =>
    let total := totalPathLength g v
    (v, if total > 0 then ((g.node_count : ℚ) - 1) / (total : ℚ) else 0))

/-- Mirror of `find_connected_components` (petgraph `connected_components`
contract: the number of connected components), counted as the number of nodes
that are minimal in their reachability class. -/
def find_connected_components (g : Graph) : Nat :=
  ((List.range g.node_count).filter
    (fun v => decide (∀ w ∈ reachSet g v g.node_count, v ≤ w))).length

/-- The concrete scenario of the spec: records `[(A,X),(B,X),(C,Y),(D,Y)]`. -/
def sampleRecords : List Player := [⟨"A", "X"⟩, ⟨"B", "X"⟩, ⟨"C", "Y"⟩, ⟨"D", "Y"⟩]

/-- A single-record input: one node, no edges. -/
def singleRecord : List Player := [⟨"A", "X"⟩]

/-- The same (name, team) record twice: the team member vector then holds the
same node index twice. -/
def duplicatedRecord : List Player := [⟨"A", "X"⟩, ⟨"A", "X"⟩]

/-- Two records sharing one team: a single edge. -/
def pairRecords : List Player := [⟨"A", "X"⟩, ⟨"B", "X"⟩]

/-- One name listed under two teams: the single node joins both team cliques. -/
def twoTeamRecords : List Player := [⟨"A", "X"⟩, ⟨"B", "X"⟩, ⟨"A", "Y"⟩, ⟨"C", "Y"⟩]

/-! ### Basic lemmas about neighbors and walks -/

lemma mem_neighbors_aux (u v : Nat) (l : List (Nat × Nat)) :
    v ∈ l.foldr
      (fun e acc => if e.1 = u then e.2 :: acc else if e.2 = u then e.1 :: acc else acc) [] ↔
      (u, v) ∈ l ∨ (v, u) ∈ l := by
  induction l with
  | nil => simp
  | cons e l ih =>
    rcases e with ⟨a, b⟩
    simp only [List.foldr_cons]
    split_ifs with ha hb <;>
      simp only [List.mem_cons, ih, Prod.mk.injEq] <;> aesop

lemma mem_neighbors {g : Graph} {u v : Nat} :
    v ∈ neighbors g u ↔ (u, v) ∈ g.edges ∨ (v, u) ∈ g.edges :=
  mem_neighbors_aux u v g.edges

lemma neighbors_symm {g : Graph} {u v : Nat} :
    v ∈ neighbors g u ↔ u ∈ neighbors g v := by
  rw [mem_neighbors, mem_neighbors, or_comm]

lemma neighbors_lt {g : Graph} (hWF : g.WF) {u v : Nat} (h : v ∈ neighbors g u) :
    v < g.node_count := by
  rcases mem_neighbors.mp h with h' | h'
  · exact (hWF _ h').2
  · exact (hWF _ h').1

lemma walkOfLen_zero {g : Graph} {s v : Nat} : walkOfLen g s v 0 ↔ s = v := Iff.rfl

lemma walkOfLen_succ {g : Graph} {s v k : Nat} :
    walkOfLen g s v (k + 1) ↔ ∃ u ∈ neighbors g s, walkOfLen g u v k := Iff.rfl

/-- A walk of length `k + 1` is a walk of length `k` followed by one edge. -/
lemma walkOfLen_succ_iff_snoc {g : Graph} {v : Nat} :
    ∀ {k s : Nat}, walkOfLen g s v (k + 1) ↔ ∃ u, walkOfLen g s u k ∧ v ∈ neighbors g u := by
  intro k
  induction k with
  | zero =>
    intro s
    rw [walkOfLen_succ]
    constructor
    · rintro ⟨u, hu, hw⟩
      exact ⟨s, rfl, by rwa [walkOfLen_zero.mp hw] at hu⟩
    · rintro ⟨u, hw, hv⟩
      exact ⟨v, by rwa [← walkOfLen_zero.mp hw] at hv, rfl⟩
  | succ k ih =>
    intro s
    rw [walkOfLen_succ]
    constructor
    · rintro ⟨w, hw, hwalk⟩
      rcases ih.mp hwalk with ⟨u, hu, hv⟩
      exact ⟨u, ⟨w, hw, hu⟩, hv⟩
    · rintro ⟨u, hu, hv⟩
      rcases walkOfLen_succ.mp hu with ⟨w, hw, hwalk⟩
      exact ⟨w, hw, ih.mpr ⟨u, hwalk, hv⟩⟩

/-! ### Lemmas about breadth-first frontier expansion -/

lemma reachSet_zero {g : Graph} {s : Nat} : reachSet g s 0 = {s} := rfl

lemma reachSet_succ {g : Graph} {s k : Nat} :
    reachSet g s (k + 1) =
      reachSet g s k ∪ (reachSet g s k).biUnion (fun u => (neighbors g u).toFinset) := rfl

lemma reachSet_subset_succ {g : Graph} {s k : Nat} :
    reachSet g s k ⊆ reachSet g s (k + 1) := by
  rw [reachSet_succ]; exact Finset.subset_union_left

lemma reachSet_mono {g : Graph} {s : Nat} {j k : Nat} (h : j ≤ k) :
    reachSet g s j ⊆ reachSet g s k := by
  induction k with
  | zero => simp_all
  | succ k ih =>
    rcases Nat.lt_or_ge j (k + 1) with h' | h'
    · exact (ih (Nat.lt_succ_iff.mp h')).trans reachSet_subset_succ
    · have : j = k + 1 := Nat.le_antisymm h h'
      subst this; exact subset_rfl

/-- The frontier set after `k` expansions is exactly the set of targets of
walks of length at most `k`. -/
lemma mem_reachSet_iff {g : Graph} {s : Nat} :
    ∀ {k v : Nat}, v ∈ reachSet g s k ↔ ∃ j ≤ k, walkOfLen g s v j := by
  intro k
  induction k with
  | zero =>
    intro v
    simp only [reachSet_zero, Finset.mem_singleton]
    constructor
    · rintro rfl; exact ⟨0, Nat.le_refl 0, rfl⟩
    · rintro ⟨j, hj, hw⟩
      have : j = 0 := Nat.le_zero.mp hj
      subst this; exact (walkOfLen_zero.mp hw).symm
  | succ k ih =>
    intro v
    rw [reachSet_succ]
    simp only [Finset.mem_union, Finset.mem_biUnion, List.mem_toFinset]
    constructor
    · rintro (h | ⟨u, hu, hv⟩)
      · rcases ih.mp h with ⟨j, hj, hw⟩
        exact ⟨j, Nat.le_succ_of_le hj, hw⟩
      · rcases (ih (v := u)).mp hu with ⟨j, hj, hw⟩
        exact ⟨j + 1, Nat.succ_le_succ hj, walkOfLen_succ_iff_snoc.mpr ⟨u, hw, hv⟩⟩
    · rintro ⟨j, hj, hw⟩
      rcases Nat.lt_or_ge j (k + 1) with h' | h'
      · exact Or.inl (ih.mpr ⟨j, Nat.lt_succ_iff.mp h', hw⟩)
      · have : j = k + 1 := Nat.le_antisymm hj h'
        subst this
        rcases walkOfLen_succ_iff_snoc.mp hw with ⟨u, hu, hv⟩
        exact Or.inr ⟨u, (ih (v := u)).mpr ⟨k, Nat.le_refl k, hu⟩, hv⟩

lemma reachSet_subset_range {g : Graph} (hWF : g.WF) {s : Nat} (hs : s < g.node_count) :
    ∀ k, reachSet g s k ⊆ Finset.range g.node_count := by
  intro k
  induction k with
  | zero =>
    rw [reachSet_zero]
    intro x hx
    rw [Finset.mem_singleton] at hx
    subst hx; exact Finset.mem_range.mpr hs
  | succ k ih =>
    rw [reachSet_succ]
    intro x hx
    rcases Finset.mem_union.mp hx with h | h
    · exact ih h
    · rcases Finset.mem_biUnion.mp h with ⟨u, _, hx'⟩
      exact Finset.mem_range.mpr (neighbors_lt hWF (List.mem_toFinset.mp hx'))

lemma reachable_lt {g : Graph} (hWF : g.WF) {s v : Nat} (hs : s < g.node_count)
    (h : GraphReachable g s v) : v < g.node_count := by
  rcases h with ⟨k, hk⟩
  have : v ∈ reachSet g s k := mem_reachSet_iff.mpr ⟨k, Nat.le_refl k, hk⟩
  exact Finset.mem_range.mp (reachSet_subset_range hWF hs k this)

/-! ### Stabilisation of the frontier within `node_count` steps -/

lemma reachSet_stab {g : Graph} {s k : Nat} (h : reachSet g s (k + 1) = reachSet g s k) :
    ∀ m, reachSet g s (k + m) = reachSet g s k := by
  intro m
  induction m with
  | zero => rfl
  | succ m ih =>
    have : k + (m + 1) = (k + m) + 1 := rfl
    rw [this, reachSet_succ, ih, ← reachSet_succ, h]

lemma exists_stab {g : Graph} (hWF : g.WF) {s : Nat} (hs : s < g.node_count) :
    ∃ k ≤ g.node_count, reachSet g s (k + 1) = reachSet g s k := by
  by_contra hcon
  push_neg at hcon
  have hcard : ∀ k, k ≤ g.node_count → k + 1 ≤ (reachSet g s k).card := by
    intro k
    induction k with
    | zero => intro _; simp [reachSet_zero]
    | succ k ih =>
      intro hk
      have h1 : k + 1 ≤ (reachSet g s k).card := ih (Nat.le_of_succ_le hk)
      have hne : reachSet g s (k + 1) ≠ reachSet g s k := hcon k (Nat.le_of_succ_le hk)
      have hss : reachSet g s k ⊂ reachSet g s (k + 1) :=
        lt_of_le_of_ne reachSet_subset_succ (fun h => hne h.symm)
      exact Nat.succ_le_of_lt (Nat.lt_of_le_of_lt h1 (Finset.card_lt_card hss))
  have h1 : g.node_count + 1 ≤ (reachSet g s g.node_count).card :=
    hcard g.node_count (Nat.le_refl _)
  have h2 : (reachSet g s g.node_count).card ≤ g.node_count := by
    have := Finset.card_le_card (reachSet_subset_range hWF hs g.node_count)
    simpa using this
  omega

/-- Every walk target is already in the frontier after `node_count` steps. -/
lemma walk_mem_reachSet_node_count {g : Graph} (hWF : g.WF) {s v j : Nat}
    (hs : s < g.node_count) (h : walkOfLen g s v j) :
    v ∈ reachSet g s g.node_count := by
  rcases exists_stab hWF hs with ⟨k, hk, hstab⟩
  have hvj : v ∈ reachSet g s j := mem_reachSet_iff.mpr ⟨j, Nat.le_refl j, h⟩
  rcases Nat.lt_or_ge j g.node_count with h' | h'
  · exact reachSet_mono (Nat.le_of_lt h') hvj
  · have : reachSet g s j = reachSet g s k := by
      have hj : j = k + (j - k) := by omega
      rw [hj]; exact reachSet_stab hstab (j - k)
    rw [this] at hvj
    exact reachSet_mono hk hvj

/-! ### Correctness of the modelled dijkstra distances -/

lemma leastReach_some_iff {g : Graph} {s v : Nat} :
    ∀ {fuel k d : Nat}, leastReach g s v fuel k = some d ↔
      k ≤ d ∧ d < k + fuel ∧ v ∈ reachSet g s d ∧
        ∀ j, k ≤ j → j < d → v ∉ reachSet g s j := by
  intro fuel
  induction fuel with
  | zero =>
    intro k d
    simp only [leastReach]
    constructor
    · rintro ⟨⟩
    · rintro ⟨h1, h2, -, -⟩; omega
  | succ fuel ih =>
    intro k d
    simp only [leastReach]
    by_cases hk : v ∈ reachSet g s k
    · rw [if_pos hk]
      constructor
      · rintro ⟨⟩
        exact ⟨Nat.le_refl _, by omega, hk, fun j h1 h2 => by omega⟩
      · rintro ⟨h1, h2, h3, h4⟩
        rcases Nat.eq_or_lt_of_le h1 with rfl | hlt
        · rfl
        · exact absurd hk (h4 k (Nat.le_refl k) hlt)
    · rw [if_neg hk, ih]
      constructor
      · rintro ⟨h1, h2, h3, h4⟩
        refine ⟨by omega, by omega, h3, ?_⟩
        intro j hj1 hj2
        rcases Nat.eq_or_lt_of_le hj1 with rfl | hlt
        · exact hk
        · exact h4 j hlt hj2
      · rintro ⟨h1, h2, h3, h4⟩
        have hne : d ≠ k := fun h => hk (h ▸ h3)
        refine ⟨by omega, by omega, h3, fun j hj1 hj2 => h4 j (by omega) hj2⟩

/-- The modelled dijkstra map holds `d` at key `v` exactly when `d` is the
shortest-path distance from `s` to `v`. -/
lemma dijkstraDist_some_iff {g : Graph} (hWF : g.WF) {s v : Nat} (hs : s < g.node_count)
    {d : Nat} : dijkstraDist g s v = some d ↔ SPDist g s v d := by
  unfold dijkstraDist
  rw [leastReach_some_iff]
  constructor
  · rintro ⟨-, hlt, hmem, hmin⟩
    rcases mem_reachSet_iff.mp hmem with ⟨j, hj, hw⟩
    have hnolt : ∀ j', walkOfLen g s v j' → d ≤ j' := by
      intro j' hw'
      by_contra hcon
      push_neg at hcon
      exact hmin j' (Nat.zero_le j') hcon (mem_reachSet_iff.mpr ⟨j', Nat.le_refl j', hw'⟩)
    have : j = d := Nat.le_antisymm (by exact hj) (hnolt j hw) |>.symm ▸ rfl
    rcases Nat.eq_or_lt_of_le hj with rfl | hlt'
    · exact ⟨hw, hnolt⟩
    · exact absurd (hnolt j hw) (by omega)
  · rintro ⟨hw, hmin⟩
    have hmem : v ∈ reachSet g s d := mem_reachSet_iff.mpr ⟨d, Nat.le_refl d, hw⟩
    have hnotlt : ∀ j, j < d → v ∉ reachSet g s j := by
      intro j hj hmem'
      rcases mem_reachSet_iff.mp hmem' with ⟨j', hj', hw'⟩
      exact absurd (hmin j' hw') (by omega)
    have hdn : d ≤ g.node_count := by
      by_contra hcon
      push_neg at hcon
      exact hnotlt g.node_count hcon (walk_mem_reachSet_node_count hWF hs hw)
    exact ⟨Nat.zero_le d, by omega, hmem, fun j _ => hnotlt j⟩

/-- The modelled dijkstra map has no entry at `v` exactly when `v` is
unreachable from `s`. -/
lemma dijkstraDist_none_iff {g : Graph} (hWF : g.WF) {s v : Nat} (hs : s < g.node_count) :
    dijkstraDist g s v = none ↔ ¬GraphReachable g s v := by
  constructor
  · intro hnone hreach
    have hex : ∃ k, walkOfLen g s v k := hreach
    have hfind : SPDist g s v (Nat.find hex) :=
      ⟨Nat.find_spec hex, fun j hj => Nat.find_le hj⟩
    rw [(dijkstraDist_some_iff hWF hs).mpr hfind] at hnone
    cases hnone
  · intro hreach
    rcases h : dijkstraDist g s v with - | d
    · rfl
    · exact absurd ⟨d, ((dijkstraDist_some_iff hWF hs).mp h).1⟩ hreach

/-! ### The distance sum -/

lemma sum_filterMap_getD (f : Nat → Option Nat) :
    ∀ l : List Nat, (l.filterMap f).sum = (l.map (fun w => (f w).getD 0)).sum := by
  intro l
  induction l with
  | nil => rfl
  | cons x l ih =>
    rcases hx : f x with - | d
    · simp [List.filterMap_cons, hx, ih]
    · simp [List.filterMap_cons, hx, ih]

lemma sum_map_range (f : Nat → Nat) :
    ∀ n, ((List.range n).map f).sum = ∑ w ∈ Finset.range n, f w := by
  intro n
  induction n with
  | zero => rfl
  | succ n ih =>
    rw [List.range_succ, Finset.sum_range_succ, List.map_append, List.sum_append, ih]
    simp

/-- The summed dijkstra distances equal the sum, over the reachable set, of
the shortest-path distances. -/
lemma totalPathLength_eq {g : Graph} (hWF : g.WF) {s : Nat} (hs : s < g.node_count)
    {R : Finset Nat} {d : Nat → Nat}
    (hR : ∀ w, w ∈ R ↔ GraphReachable g s w)
    (hd : ∀ w ∈ R, SPDist g s w (d w)) :
    totalPathLength g s = ∑ w ∈ R, d w := by
  have hRsub : R ⊆ Finset.range g.node_count := by
    intro w hw
    exact Finset.mem_range.mpr (reachable_lt hWF hs ((hR w).mp hw))
  have hpoint : ∀ w, (dijkstraDist g s w).getD 0 = if w ∈ R then d w else 0 := by
    intro w
    by_cases hw : w ∈ R
    · rw [if_pos hw, (dijkstraDist_some_iff hWF hs).mpr (hd w hw)]
      rfl
    · rw [if_neg hw, (dijkstraDist_none_iff hWF hs).mpr (fun hr => hw ((hR w).mpr hr))]
      rfl
  unfold totalPathLength
  rw [sum_filterMap_getD, sum_map_range]
  calc ∑ w ∈ Finset.range g.node_count, (dijkstraDist g s w).getD 0
      = ∑ w ∈ Finset.range g.node_count, if w ∈ R then d w else 0 := by
        exact Finset.sum_congr rfl (fun w _ => hpoint w)
    _ = ∑ w ∈ Finset.range g.node_count ∩ R, d w := Finset.sum_ite_mem _ _ _
    _ = ∑ w ∈ R, d w := by rw [Finset.inter_eq_right.mpr hRsub]

/-! ### Structure of first-occurrence interning -/

lemma foldl_intern_mem {x : String} :
    ∀ (l acc : List String),
      x ∈ l.foldl (fun acc y => if y ∈ acc then acc else acc ++ [y]) acc ↔ x ∈ acc ∨ x ∈ l := by
  intro l
  induction l with
  | nil => intro acc; simp
  | cons a l ih =>
    intro acc
    simp only [List.foldl_cons]
    by_cases ha : a ∈ acc
    · rw [if_pos ha, ih]
      constructor
      · rintro (h | h)
        · exact Or.inl h
        · exact Or.inr (List.mem_cons_of_mem a h)
      · rintro (h | h)
        · exact Or.inl h
        · rcases List.mem_cons.mp h with rfl | h'
          · exact Or.inl ha
          · exact Or.inr h'
    · rw [if_neg ha, ih]
      simp only [List.mem_append, List.mem_singleton, List.mem_cons]
      tauto

lemma foldl_intern_nodup :
    ∀ (l acc : List String), acc.Nodup →
      (l.foldl (fun acc y => if y ∈ acc then acc else acc ++ [y]) acc).Nodup := by
  intro l
  induction l with
  | nil => intro acc h; exact h
  | cons a l ih =>
    intro acc h
    simp only [List.foldl_cons]
    by_cases ha : a ∈ acc
    · rw [if_pos ha]; exact ih acc h
    · rw [if_neg ha]
      refine ih _ ?_
      rw [List.nodup_append]
      exact ⟨h, List.nodup_singleton a, by simpa using ha⟩

lemma foldl_intern_extends :
    ∀ (l acc : List String),
      ∃ t, l.foldl (fun acc y => if y ∈ acc then acc else acc ++ [y]) acc = acc ++ t := by
  intro l
  induction l with
  | nil => intro acc; exact ⟨[], by simp⟩
  | cons a l ih =>
    intro acc
    simp only [List.foldl_cons]
    by_cases ha : a ∈ acc
    · rw [if_pos ha]; exact ih acc
    · rw [if_neg ha]
      rcases ih (acc ++ [a]) with ⟨t, ht⟩
      exact ⟨a :: t, by rw [ht]; simp⟩

lemma foldl_intern_of_nodup :
    ∀ (l acc : List String), l.Nodup → (∀ x ∈ l, x ∉ acc) →
      l.foldl (fun acc y => if y ∈ acc then acc else acc ++ [y]) acc = acc ++ l := by
  intro l
  induction l with
  | nil => intro acc _ _; simp
  | cons a l ih =>
    intro acc hnd hdis
    simp only [List.foldl_cons]
    rw [if_neg (hdis a (List.mem_cons_self a l))]
    rw [ih (acc ++ [a]) (List.Nodup.of_cons hnd)]
    · simp
    · intro x hx
      simp only [List.mem_append, List.mem_singleton]
      rintro (h | rfl)
      · exact hdis x (List.mem_cons_of_mem a hx) h
      · exact (List.nodup_cons.mp hnd).1 hx

lemma foldl_intern_all_mem :
    ∀ (l acc : List String), (∀ x ∈ l, x ∈ acc) →
      l.foldl (fun acc y => if y ∈ acc then acc else acc ++ [y]) acc = acc := by
  intro l
  induction l with
  | nil => intro acc _; rfl
  | cons a l ih =>
    intro acc h
    simp only [List.foldl_cons]
    rw [if_pos (h a (List.mem_cons_self a l))]
    exact ih acc (fun x hx => h x (List.mem_cons_of_mem a hx))

lemma firstOccur_mem {x : String} {l : List String} : x ∈ firstOccur l ↔ x ∈ l := by
  unfold firstOccur
  rw [foldl_intern_mem]
  simp

lemma firstOccur_nodup (l : List String) : (firstOccur l).Nodup :=
  foldl_intern_nodup l [] List.nodup_nil

lemma firstOccur_of_nodup {l : List String} (h : l.Nodup) : firstOccur l = l := by
  unfold firstOccur
  rw [foldl_intern_of_nodup l [] h (fun x _ => List.not_mem_nil x)]
  simp

lemma firstOccur_append (l₁ l₂ : List String) :
    ∃ t, firstOccur (l₁ ++ l₂) = firstOccur l₁ ++ t := by
  unfold firstOccur
  rw [List.foldl_append]
  exact foldl_intern_extends l₂ _

lemma firstOccur_const {l : List String} {c : String} (hne : l ≠ [])
    (hall : ∀ x ∈ l, x = c) : firstOccur l = [c] := by
  rcases l with - | ⟨a, l⟩
  · exact absurd rfl hne
  · have ha : a = c := hall a (List.mem_cons_self a l)
    subst ha
    unfold firstOccur
    simp only [List.foldl_cons, if_neg (List.not_mem_nil a), List.nil_append]
    exact foldl_intern_all_mem l [a] (fun x hx => by
      rw [hall x (List.mem_cons_of_mem a hx)]
      exact List.mem_singleton.mpr rfl)

lemma firstOccur_length (l : List String) : (firstOccur l).length = l.toFinset.card := by
  have h1 : (firstOccur l).toFinset = l.toFinset := by
    ext x
    simp only [List.mem_toFinset]
    exact firstOccur_mem
  rw [← h1, List.toFinset_card_of_nodup (firstOccur_nodup l)]

/-! ### Structure of the edge construction -/

lemma mem_cliqueEdges_endpoints :
    ∀ {l : List Nat} {a b : Nat}, (a, b) ∈ cliqueEdges l → a ∈ l ∧ b ∈ l := by
  intro l
  induction l with
  | nil => intro a b h; cases h
  | cons x xs ih =>
    intro a b h
    rcases List.mem_append.mp h with h' | h'
    · rcases List.mem_map.mp h' with ⟨y, hy, hxy⟩
      injection hxy with h1 h2
      subst h1; subst h2
      exact ⟨List.mem_cons_self x xs, List.mem_cons_of_mem x hy⟩
    · rcases ih h' with ⟨ha, hb⟩
      exact ⟨List.mem_cons_of_mem x ha, List.mem_cons_of_mem x hb⟩

lemma cliqueEdges_of_mem_ne :
    ∀ {l : List Nat} {a b : Nat}, a ∈ l → b ∈ l → a ≠ b →
      (a, b) ∈ cliqueEdges l ∨ (b, a) ∈ cliqueEdges l := by
  intro l
  induction l with
  | nil => intro a b ha _ _; cases ha
  | cons x xs ih =>
    intro a b ha hb hne
    rcases List.mem_cons.mp ha with rfl | ha'
    · have hb' : b ∈ xs := by
        rcases List.mem_cons.mp hb with rfl | hb'
        · exact absurd rfl hne
        · exact hb'
      exact Or.inl (List.mem_append.mpr (Or.inl (List.mem_map.mpr ⟨b, hb', rfl⟩)))
    · rcases List.mem_cons.mp hb with rfl | hb'
      · exact Or.inr (List.mem_append.mpr (Or.inl (List.mem_map.mpr ⟨a, ha', rfl⟩)))
      · rcases ih ha' hb' hne with h | h
        · exact Or.inl (List.mem_append.mpr (Or.inr h))
        · exact Or.inr (List.mem_append.mpr (Or.inr h))

lemma cliqueEdges_ne_of_nodup :
    ∀ {l : List Nat}, l.Nodup → ∀ {a b : Nat}, (a, b) ∈ cliqueEdges l → a ≠ b := by
  intro l
  induction l with
  | nil => intro _ a b h; cases h
  | cons x xs ih =>
    intro hnd a b h
    rcases List.mem_append.mp h with h' | h'
    · rcases List.mem_map.mp h' with ⟨y, hy, hxy⟩
      injection hxy with h1 h2
      subst h1; subst h2
      intro hab
      exact (List.nodup_cons.mp hnd).1 (hab ▸ hy)
    · exact ih (List.nodup_cons.mp hnd).2 h'

lemma cliqueEdges_length :
    ∀ l : List Nat, (cliqueEdges l).length = l.length.choose 2 := by
  intro l
  induction l with
  | nil => rfl
  | cons x xs ih =>
    simp only [cliqueEdges, List.length_append, List.length_map, ih, List.length_cons]
    rw [Nat.choose_succ_succ xs.length 1, Nat.choose_one_right]

lemma nodeList_mem {players : List Player} {p : Player} (hp : p ∈ players) :
    p.player_name ∈ nodeList players := by
  unfold nodeList
  exact firstOccur_mem.mpr (List.mem_map.mpr ⟨p, hp, rfl⟩)

lemma teamMembers_mem {players : List Player} {ns : List String} {t : String} {x : Nat}
    (hx : x ∈ teamMembers players ns t) :
    ∃ p ∈ players, p.team = t ∧ x = ns.indexOf p.player_name := by
  unfold teamMembers at hx
  rcases List.mem_map.mp hx with ⟨p, hp, rfl⟩
  have hp' := List.mem_filter.mp hp
  exact ⟨p, hp'.1, by simpa using hp'.2, rfl⟩

lemma mem_edges_iff {players : List Player} {e : Nat × Nat} :
    e ∈ (create_graph players).edges ↔
      ∃ t ∈ teamKeys players, e ∈ cliqueEdges (teamMembers players (nodeList players) t) := by
  show e ∈ ((teamKeys players).map _).flatten ↔ _
  rw [List.mem_flatten]
  constructor
  · rintro ⟨l, hl, he⟩
    rcases List.mem_map.mp hl with ⟨t, ht, rfl⟩
    exact ⟨t, ht, he⟩
  · rintro ⟨t, ht, he⟩
    exact ⟨_, List.mem_map.mpr ⟨t, ht, rfl⟩, he⟩

/-- Every graph `create_graph` builds is well-formed: edge endpoints are
indices of interned names. -/
lemma create_graph_WF (players : List Player) : (create_graph players).WF := by
  intro e he
  rcases mem_edges_iff.mp he with ⟨t, -, he'⟩
  have hnodes : (create_graph players).node_count = (nodeList players).length := rfl
  rcases e with ⟨a, b⟩
  have hab := mem_cliqueEdges_endpoints he'
  constructor
  · rcases teamMembers_mem hab.1 with ⟨p, hp, -, rfl⟩
    rw [hnodes]
    exact List.indexOf_lt_length.mpr (nodeList_mem hp)
  · rcases teamMembers_mem hab.2 with ⟨p, hp, -, rfl⟩
    rw [hnodes]
    exact List.indexOf_lt_length.mpr (nodeList_mem hp)

/-! ### Evaluation of the concrete scenarios -/

lemma closeness_sample_eq :
    compute_closeness_centrality (create_graph sampleRecords) =
      [(0, 3), (1, 3), (2, 3), (3, 3)] := by
  have hn : (create_graph sampleRecords).node_count = 4 := by decide
  have h0 : totalPathLength (create_graph sampleRecords) 0 = 1 := by decide
  have h1 : totalPathLength (create_graph sampleRecords) 1 = 1 := by decide
  have h2 : totalPathLength (create_graph sampleRecords) 2 = 1 := by decide
  have h3 : totalPathLength (create_graph sampleRecords) 3 = 1 := by decide
  unfold compute_closeness_centrality
  simp only [hn, List.range_succ, List.range_zero]
  simp only [List.nil_append, List.map_append, List.map_cons, List.map_nil, h0, h1, h2, h3]
  norm_num

lemma closeness_single_eq :
    compute_closeness_centrality (create_graph singleRecord) = [(0, 0)] := by
  have hn : (create_graph singleRecord).node_count = 1 := by decide
  have h0 : totalPathLength (create_graph singleRecord) 0 = 0 := by decide
  unfold compute_closeness_centrality
  simp only [hn, List.range_succ, List.range_zero]
  simp only [List.nil_append, List.map_append, List.map_cons, List.map_nil, h0]
  norm_num

/-! ### Claim theorems -/

/-- C4: for the record sequence `[(A,X),(B,X),(C,Y),(D,Y)]` (four distinct
names, two teams) the built graph has 4 nodes, component count 2, and every
one of the four nodes has centrality score exactly `3`
(`(total_node_count - 1) / 1 = 3`). -/
theorem two_pair_scenario :
    (create_graph sampleRecords).node_count = 4 ∧
    find_connected_components (create_graph sampleRecords) = 2 ∧
    compute_closeness_centrality (create_graph sampleRecords) =
      [(0, 3), (1, 3), (2, 3), (3, 3)] :=
  ⟨by decide, by decide, closeness_sample_eq⟩

/-- C9: on the empty record sequence the whole pipeline is total and returns
the empty graph, component count `0` and an empty score map. -/
theorem empty_input_total :
    (create_graph []).node_count = 0 ∧
    (create_graph []).edges = [] ∧
    find_connected_components (create_graph []) = 0 ∧
    compute_closeness_centrality (create_graph []) = [] :=
  ⟨rfl, rfl, rfl, rfl⟩

/-- C6: for every graph, the component count is at least 1 when there is at
least one node, and it is 0 exactly when there are no nodes. -/
theorem component_count_pos_iff (g : Graph) :
    (1 ≤ g.node_count → 1 ≤ find_connected_components g) ∧
    (find_connected_components g = 0 ↔ g.node_count = 0) := by
  have key : 1 ≤ g.node_count → 1 ≤ find_connected_components g := by
    intro h
    have h0 : (0 : Nat) ∈ (List.range g.node_count).filter
        (fun v => decide (∀ w ∈ reachSet g v g.node_count, v ≤ w)) := by
      refine List.mem_filter.mpr ⟨List.mem_range.mpr h, ?_⟩
      exact decide_eq_true (fun w _ => Nat.zero_le w)
    exact List.length_pos.mpr (List.ne_nil_of_mem h0)
  refine ⟨key, ?_, ?_⟩
  · intro h0
    by_contra hne
    have := key (Nat.pos_of_ne_zero hne)
    omega
  · intro h0
    unfold find_connected_components
    rw [h0]
    rfl

/-- Witness for C6 at a concrete one-node graph. -/
theorem component_count_pos_iff_witness :
    1 ≤ find_connected_components (create_graph singleRecord) :=
  (component_count_pos_iff (create_graph singleRecord)).1 (by decide)

/-- C3 counterexample: in the two-pair scenario the node `A` has score `3`,
which lies outside the interval `[0, 1]` claimed by the spec (the spec itself
flags this in its §9 open question). -/
theorem closeness_above_one :
    (0, (3 : ℚ)) ∈ compute_closeness_centrality (create_graph sampleRecords) ∧
    ¬((3 : ℚ) ≤ 1) := by
  rw [closeness_sample_eq]
  norm_num

/-- C5 counterexample: when the same `(name, team)` record appears twice, the
member vector of that team holds the node twice and the edge loop emits a
self-loop. -/
theorem self_loop_on_duplicate :
    (0, 0) ∈ (create_graph duplicatedRecord).edges := by decide

/-- C8 counterexample: a one-record input has every record carrying the same
single team value, yet its only node scores `0`, not `1` (its distance sum is
`0`, so the zero branch is taken). -/
theorem single_clique_single_node_score_zero :
    compute_closeness_centrality (create_graph singleRecord) = [(0, 0)] ∧
    find_connected_components (create_graph singleRecord) = 1 ∧
    (0 : ℚ) ≠ 1 :=
  ⟨closeness_single_eq, by decide, by norm_num⟩

/-- C1: for every well-formed graph and node `v`, if `R` is the set of nodes
reachable from `v` and `d w` the shortest-path distance (unit edge weight)
from `v` to each `w ∈ R`, and the distance sum is positive, then the score
recorded for `v` is `(total_node_count - 1) / (∑ w ∈ R, d w)` — unreachable
nodes contribute nothing to the sum. -/
theorem closeness_eq_formula {g : Graph} (hWF : g.WF) {v : Nat} (hv : v < g.node_count)
    {R : Finset Nat} {d : Nat → Nat}
    (hR : ∀ w, w ∈ R ↔ GraphReachable g v w)
    (hd : ∀ w ∈ R, SPDist g v w (d w))
    (hpos : 0 < ∑ w ∈ R, d w) :
    (v, ((g.node_count : ℚ) - 1) / ((∑ w ∈ R, d w : ℕ) : ℚ)) ∈
      compute_closeness_centrality g := by
  have htot : totalPathLength g v = ∑ w ∈ R, d w := totalPathLength_eq hWF hv hR hd
  refine List.mem_map.mpr ⟨v, List.mem_range.mpr hv, ?_⟩
  show (v, if totalPathLength g v > 0 then ((g.node_count : ℚ) - 1) / (totalPathLength g v : ℚ)
    else 0) = _
  rw [htot, if_pos hpos]

/-- Witness for C1: in the two-record graph `A — B`, from node `0` the
reachable set is `{0, 1}` with distances `0` and `1`, so the score is
`(2 - 1) / 1`. -/
theorem closeness_eq_formula_witness :
    (0, (((create_graph pairRecords).node_count : ℚ) - 1) /
        ((∑ w ∈ Finset.range 2, id w : ℕ) : ℚ)) ∈
      compute_closeness_centrality (create_graph pairRecords) := by
  refine closeness_eq_formula (by decide) (by decide) ?_ ?_ (by decide)
  · intro w
    constructor
    · intro hw
      have hw2 : w < 2 := Finset.mem_range.mp hw
      interval_cases w
      · exact ⟨0, rfl⟩
      · exact ⟨1, by decide⟩
    · intro hr
      exact Finset.mem_range.mpr (reachable_lt (by decide) (by decide) hr)
  · intro w hw
    have hw2 : w < 2 := Finset.mem_range.mp hw
    interval_cases w
    · exact ⟨rfl, fun j _ => Nat.zero_le j⟩
    · refine ⟨by decide, ?_⟩
      intro j hj
      cases j with
      | zero => exact absurd hj (by decide)
      | succ m => exact Nat.succ_le_succ (Nat.zero_le m)

/-- C2: for every well-formed graph and node `v`, if the sum of shortest-path
distances from `v` over its reachable set is `0`, the recorded score is `0`. -/
theorem closeness_zero_of_zero_sum {g : Graph} (hWF : g.WF) {v : Nat}
    (hv : v < g.node_count) {R : Finset Nat} {d : Nat → Nat}
    (hR : ∀ w, w ∈ R ↔ GraphReachable g v w)
    (hd : ∀ w ∈ R, SPDist g v w (d w))
    (hzero : ∑ w ∈ R, d w = 0) :
    (v, (0 : ℚ)) ∈ compute_closeness_centrality g := by
  have htot : totalPathLength g v = ∑ w ∈ R, d w := totalPathLength_eq hWF hv hR hd
  refine List.mem_map.mpr ⟨v, List.mem_range.mpr hv, ?_⟩
  show (v, if totalPathLength g v > 0 then ((g.node_count : ℚ) - 1) / (totalPathLength g v : ℚ)
    else 0) = _
  rw [htot, hzero]
  norm_num

/-- Witness for C2: in the one-record graph the single node is isolated, its
distance sum is `0` and its score is `0`. -/
theorem closeness_zero_of_zero_sum_witness :
    (0, (0 : ℚ)) ∈ compute_closeness_centrality (create_graph singleRecord) := by
  refine closeness_zero_of_zero_sum (g := create_graph singleRecord)
    (by decide) (by decide) (R := Finset.range 1) (d := fun _ => 0) ?_ ?_ (by decide)
  · intro w
    constructor
    · intro hw
      have hw1 : w < 1 := Finset.mem_range.mp hw
      interval_cases w
      · exact ⟨0, rfl⟩
    · intro hr
      exact Finset.mem_range.mpr (reachable_lt (by decide) (by decide) hr)
  · intro w hw
    have hw1 : w < 1 := Finset.mem_range.mp hw
    interval_cases w
    · exact ⟨rfl, fun j _ => Nat.zero_le j⟩

/-- C3 (amended): for every input record sequence, every recorded centrality
score lies in `[0, total_node_count - 1]` (the upper bound `1` claimed by the
spec fails, see the counterexample with score `3`). -/
theorem closeness_score_bounds (players : List Player) (q : Nat × ℚ)
    (hq : q ∈ compute_closeness_centrality (create_graph players)) :
    0 ≤ q.2 ∧ q.2 ≤ ((create_graph players).node_count : ℚ) - 1 := by
  rcases List.mem_map.mp hq with ⟨v, hv, rfl⟩
  have hv' : v < (create_graph players).node_count := List.mem_range.mp hv
  have hn1 : (1 : ℚ) ≤ ((create_graph players).node_count : ℚ) :=
    Nat.one_le_cast.mpr (Nat.pos_of_ne_zero (by omega))
  show 0 ≤ (if totalPathLength (create_graph players) v > 0 then _ else (0 : ℚ)) ∧
    (if totalPathLength (create_graph players) v > 0 then _ else (0 : ℚ)) ≤ _
  by_cases h : totalPathLength (create_graph players) v > 0
  · rw [if_pos h]
    have htot1 : (1 : ℚ) ≤ (totalPathLength (create_graph players) v : ℚ) :=
      Nat.one_le_cast.mpr h
    constructor
    · exact div_nonneg (by linarith) (by linarith)
    · exact div_le_self (by linarith) htot1
  · rw [if_neg h]
    exact ⟨le_refl 0, by linarith⟩

/-- Witness for C3 (amended) at the two-pair scenario: node `0` scores `3`,
inside `[0, 4 - 1]`. -/
theorem closeness_score_bounds_witness :
    0 ≤ ((0, (3 : ℚ)) : Nat × ℚ).2 ∧
    ((0, (3 : ℚ)) : Nat × ℚ).2 ≤ ((create_graph sampleRecords).node_count : ℚ) - 1 :=
  closeness_score_bounds sampleRecords (0, 3)
    (by rw [closeness_sample_eq]; exact List.mem_cons_self _ _)

/-- No duplicated node index within a team's member vector, provided no two
records agree on both name and team. -/
lemma teamMembers_nodup {players : List Player} {t : String}
    (hdis : players.Pairwise
      (fun p q => ¬(p.player_name = q.player_name ∧ p.team = q.team))) :
    (teamMembers players (nodeList players) t).Nodup := by
  unfold teamMembers
  have hfil : (players.filter (fun p => p.team = t)).Pairwise
      (fun p q => ¬(p.player_name = q.player_name ∧ p.team = q.team)) :=
    hdis.sublist (List.filter_sublist players)
  have hnames : (players.filter (fun p => p.team = t)).Pairwise
      (fun p q => p.player_name ≠ q.player_name) := by
    refine List.Pairwise.imp_of_mem ?_ hfil
    intro p q hp hq hpq hname
    have hpt : p.team = t := by simpa using (List.mem_filter.mp hp).2
    have hqt : q.team = t := by simpa using (List.mem_filter.mp hq).2
    exact hpq ⟨hname, hpt.trans hqt.symm⟩
  have hnames2 : (players.filter (fun p => p.team = t)).Pairwise
      (fun p q => p.player_name ≠ q.player_name ∧
        p.player_name ∈ nodeList players ∧ q.player_name ∈ nodeList players) := by
    refine List.Pairwise.imp_of_mem ?_ hnames
    intro p q hp hq h
    exact ⟨h, nodeList_mem (List.mem_filter.mp hp).1, nodeList_mem (List.mem_filter.mp hq).1⟩
  refine List.Pairwise.map _ ?_ hnames2
  rintro p q ⟨hne, hp, hq⟩ heq
  exact hne ((List.indexOf_inj hp hq).mp heq)

/-- C5 (amended): for every input record sequence in which no two records
agree on both name and team (in particular any deduplicated input), the built
graph has no self-loop edge.  (As literally stated over every record
sequence the claim fails: a duplicated record yields a self-loop, see the
counterexample.) -/
theorem no_self_loop (players : List Player)
    (hdis : players.Pairwise
      (fun p q => ¬(p.player_name = q.player_name ∧ p.team = q.team))) :
    ∀ e ∈ (create_graph players).edges, e.1 ≠ e.2 := by
  rintro ⟨a, b⟩ he
  rcases mem_edges_iff.mp he with ⟨t, -, he'⟩
  exact cliqueEdges_ne_of_nodup (teamMembers_nodup hdis) he'

/-- Witness for C5 (amended): the two-record graph has the single edge
`(0, 1)`, whose endpoints differ. -/
theorem no_self_loop_witness : (0 : Nat) ≠ 1 :=
  no_self_loop pairRecords (by decide) (0, 1) (by decide)

/-- C7: for every input record sequence, the number of edges equals the sum,
over the distinct team values, of (size of that team's member list choose 2):
each team contributes exactly a clique over its member vector. -/
theorem edge_count_eq_sum_choose (players : List Player) :
    (create_graph players).edges.length =
      ∑ t ∈ (players.map (·.team)).toFinset,
        ((players.filter (fun p => p.team = t)).length).choose 2 := by
  have hkeys : (teamKeys players).toFinset = (players.map (·.team)).toFinset := by
    ext x
    simp only [List.mem_toFinset]
    exact firstOccur_mem
  have hlen : ∀ t, (cliqueEdges (teamMembers players (nodeList players) t)).length
      = ((players.filter (fun p => p.team = t)).length).choose 2 := by
    intro t
    rw [cliqueEdges_length]
    unfold teamMembers
    rw [List.length_map]
  show (((teamKeys players).map
      (fun t => cliqueEdges (teamMembers players (nodeList players) t))).flatten).length = _
  rw [List.length_flatten, List.map_map]
  have hnd : (teamKeys players).Nodup := firstOccur_nodup _
  rw [← hkeys, List.sum_toFinset _ hnd]
  refine congrArg List.sum (List.map_congr_left ?_)
  intro t _
  exact hlen t

/-- C10: each distinct name is interned exactly once — the node list is
duplicate-free, contains exactly the names of the input, has one node per
distinct name, every record (also one naming an already-interned node under a
new team) resolves to the interned node's index inside its team's member
vector, and extending the record sequence only appends nodes (first
occurrence fixes the allocation). -/
theorem node_interning (players : List Player) :
    (create_graph players).nodes.Nodup ∧
    (∀ x, x ∈ (create_graph players).nodes ↔ x ∈ players.map (·.player_name)) ∧
    (create_graph players).node_count = (players.map (·.player_name)).toFinset.card ∧
    (∀ p ∈ players,
      (create_graph players).nodes.indexOf p.player_name ∈
        teamMembers players (create_graph players).nodes p.team) ∧
    (∀ l₁ l₂, players = l₁ ++ l₂ →
      ∃ t, (create_graph players).nodes = (create_graph l₁).nodes ++ t) := by
  have hnodes : (create_graph players).nodes = nodeList players := rfl
  refine ⟨?_, ?_, ?_, ?_, ?_⟩
  · rw [hnodes]; exact firstOccur_nodup _
  · intro x
    rw [hnodes]
    exact firstOccur_mem
  · show (nodeList players).length = _
    exact firstOccur_length _
  · intro p hp
    rw [hnodes]
    unfold teamMembers
    refine List.mem_map.mpr ⟨p, ?_, rfl⟩
    exact List.mem_filter.mpr ⟨hp, by simp⟩
  · rintro l₁ l₂ rfl
    rw [hnodes]
    have h : nodeList (l₁ ++ l₂) =
        firstOccur (l₁.map (·.player_name) ++ l₂.map (·.player_name)) := by
      unfold nodeList
      rw [List.map_append]
    rcases firstOccur_append (l₁.map (·.player_name)) (l₂.map (·.player_name)) with ⟨t, ht⟩
    exact ⟨t, by rw [h, ht]; rfl⟩

/-- Witness for C10: in `twoTeamRecords` the name `A` appears under teams `X`
and `Y`; its single interned node index belongs to team `Y`'s member vector
as well. -/
theorem node_interning_witness :
    (create_graph twoTeamRecords).nodes.indexOf "A" ∈
      teamMembers twoTeamRecords (create_graph twoTeamRecords).nodes "Y" :=
  (node_interning twoTeamRecords).2.2.2.1 ⟨"A", "Y"⟩ (by decide)

/-! ### The single-clique case -/

lemma map_indexOf_self {l : List String} (h : l.Nodup) :
    l.map (fun x => l.indexOf x) = List.range l.length := by
  apply List.ext_getElem
  · simp
  · intro i h1 h2
    rw [List.getElem_map, List.getElem_range]
    have h1' : i < l.length := by simpa using h1
    have := List.get_indexOf h ⟨i, h1'⟩
    simpa using this

lemma clique_WF {g : Graph} (hE : g.edges = cliqueEdges (List.range g.node_count)) :
    g.WF := by
  rintro ⟨a, b⟩ he
  rw [hE] at he
  have hab := mem_cliqueEdges_endpoints he
  exact ⟨List.mem_range.mp hab.1, List.mem_range.mp hab.2⟩

lemma clique_adj {g : Graph} (hE : g.edges = cliqueEdges (List.range g.node_count))
    {u w : Nat} (hu : u < g.node_count) (hw : w < g.node_count) (hne : u ≠ w) :
    w ∈ neighbors g u := by
  rcases cliqueEdges_of_mem_ne (List.mem_range.mpr hu) (List.mem_range.mpr hw) hne with h | h
  · exact mem_neighbors.mpr (Or.inl (by rw [hE]; exact h))
  · exact mem_neighbors.mpr (Or.inr (by rw [hE]; exact h))

lemma clique_reachSet {g : Graph} (hE : g.edges = cliqueEdges (List.range g.node_count))
    {v : Nat} (hv : v < g.node_count) {k : Nat} (hk : 1 ≤ k) :
    reachSet g v k = Finset.range g.node_count := by
  have hWF := clique_WF hE
  apply Finset.Subset.antisymm
  · exact reachSet_subset_range hWF hv k
  · have h1 : Finset.range g.node_count ⊆ reachSet g v 1 := by
      intro w hw
      have hw' : w < g.node_count := Finset.mem_range.mp hw
      by_cases hvw : w = v
      · subst hvw
        exact reachSet_subset_succ (by simp [reachSet_zero])
      · rw [reachSet_succ]
        refine Finset.mem_union_right _ ?_
        refine Finset.mem_biUnion.mpr ⟨v, by simp [reachSet_zero], ?_⟩
        exact List.mem_toFinset.mpr (clique_adj hE hv hw' (fun h => hvw h.symm))
    exact h1.trans (reachSet_mono hk)

lemma clique_totalPathLength {g : Graph}
    (hE : g.edges = cliqueEdges (List.range g.node_count))
    {v : Nat} (hv : v < g.node_count) :
    totalPathLength g v = g.node_count - 1 := by
  have hWF := clique_WF hE
  have hR : ∀ w, w ∈ Finset.range g.node_count ↔ GraphReachable g v w := by
    intro w
    constructor
    · intro hw
      have hw' : w < g.node_count := Finset.mem_range.mp hw
      by_cases hvw : w = v
      · subst hvw; exact ⟨0, rfl⟩
      · exact ⟨1, ⟨w, clique_adj hE hv hw' (fun h => hvw h.symm), rfl⟩⟩
    · intro hr
      exact Finset.mem_range.mpr (reachable_lt hWF hv hr)
  have hd : ∀ w ∈ Finset.range g.node_count,
      SPDist g v w (if w = v then 0 else 1) := by
    intro w hw
    have hw' : w < g.node_count := Finset.mem_range.mp hw
    by_cases hvw : w = v
    · rw [if_pos hvw, hvw]
      exact ⟨rfl, fun j _ => Nat.zero_le j⟩
    · rw [if_neg hvw]
      refine ⟨⟨w, clique_adj hE hv hw' (fun h => hvw h.symm), rfl⟩, ?_⟩
      intro j hj
      cases j with
      | zero => exact absurd (walkOfLen_zero.mp hj) (fun h => hvw h.symm)
      | succ m => exact Nat.succ_le_succ (Nat.zero_le m)
  rw [totalPathLength_eq hWF hv hR hd]
  rw [← Finset.add_sum_erase _ _ (Finset.mem_range.mpr hv)]
  rw [if_pos rfl, zero_add]
  have hone : ∀ w ∈ (Finset.range g.node_count).erase v,
      (if w = v then 0 else 1) = 1 := by
    intro w hw
    rw [if_neg (Finset.ne_of_mem_erase hw)]
  rw [Finset.sum_congr rfl hone, Finset.sum_const, smul_eq_mul, mul_one,
    Finset.card_erase_of_mem (Finset.mem_range.mpr hv), Finset.card_range]

/-- When every record carries the same team and the names are distinct, the
built graph is the complete graph over all the names, in input order. -/
lemma create_graph_single_team {players : List Player} {t : String}
    (hnd : (players.map (·.player_name)).Nodup)
    (hall : ∀ p ∈ players, p.team = t) (hne : players ≠ []) :
    (create_graph players).nodes = players.map (·.player_name) ∧
    (create_graph players).edges = cliqueEdges (List.range players.length) := by
  have hns : nodeList players = players.map (·.player_name) := firstOccur_of_nodup hnd
  refine ⟨hns, ?_⟩
  have hkeys : teamKeys players = [t] := by
    unfold teamKeys
    refine firstOccur_const ?_ ?_
    · simpa using hne
    · intro x hx
      rcases List.mem_map.mp hx with ⟨p, hp, rfl⟩
      exact hall p hp
  have hfil : players.filter (fun p => p.team = t) = players :=
    List.filter_eq_self.mpr (fun p hp => decide_eq_true (hall p hp))
  have hmem : teamMembers players (nodeList players) t = List.range players.length := by
    unfold teamMembers
    rw [hfil]
    have hcomp : players.map (fun p => (nodeList players).indexOf p.player_name)
        = (players.map (·.player_name)).map (fun x => (nodeList players).indexOf x) := by
      rw [List.map_map]
      rfl
    rw [hcomp, hns, map_indexOf_self hnd, List.length_map]
  show ((teamKeys players).map
    (fun t' => cliqueEdges (teamMembers players (nodeList players) t'))).flatten = _
  rw [hkeys]
  simp [hmem]

/-- C8 (amended): for every record sequence with at least two records, all
distinct names and a single shared team value, the graph is one clique:
component count 1 and every node's score exactly `1`.  (As literally stated
for every non-empty such sequence the claim fails: with a single record the
sole node scores `0`, see the counterexample.) -/
theorem single_clique_scores (players : List Player) (t : String)
    (hnd : (players.map (·.player_name)).Nodup)
    (hall : ∀ p ∈ players, p.team = t)
    (hlen : 2 ≤ players.length) :
    find_connected_components (create_graph players) = 1 ∧
    ∀ q ∈ compute_closeness_centrality (create_graph players), q.2 = 1 := by
  have hne : players ≠ [] := by
    intro h
    rw [h] at hlen
    exact absurd hlen (by decide)
  obtain ⟨hns, hE⟩ := create_graph_single_team hnd hall hne
  have hn : (create_graph players).node_count = players.length := by
    rw [Graph.node_count, hns, List.length_map]
  have hE' : (create_graph players).edges
      = cliqueEdges (List.range (create_graph players).node_count) := by
    rw [hE, hn]
  have h2 : 2 ≤ (create_graph players).node_count := by omega
  constructor
  · unfold find_connected_components
    have hco : ∀ v ∈ List.range (create_graph players).node_count,
        (decide (∀ w ∈ reachSet (create_graph players) v
          (create_graph players).node_count, v ≤ w)) = decide (v = 0) := by
      intro v hv
      have hv' : v < (create_graph players).node_count := List.mem_range.mp hv
      have hstep := clique_reachSet hE' hv' (k := (create_graph players).node_count)
        (by omega)
      apply decide_eq_decide.mpr
      rw [hstep]
      constructor
      · intro h
        have := h 0 (Finset.mem_range.mpr (by omega))
        omega
      · rintro rfl w hw
        exact Nat.zero_le w
    rw [List.filter_congr hco]
    obtain ⟨m, hm⟩ : ∃ m, (create_graph players).node_count = m + 1 :=
      ⟨(create_graph players).node_count - 1, by omega⟩
    rw [hm, List.range_succ_eq_map]
    have hnil : (List.map Nat.succ (List.range m)).filter (fun v => decide (v = 0)) = [] := by
      rw [List.filter_eq_nil_iff]
      intro a ha
      rcases List.mem_map.mp ha with ⟨b, -, rfl⟩
      simp
    simp [hnil]
  · intro q hq
    rcases List.mem_map.mp hq with ⟨v, hv, rfl⟩
    have hv' : v < (create_graph players).node_count := List.mem_range.mp hv
    show (if totalPathLength (create_graph players) v > 0
      then (((create_graph players).node_count : ℚ) - 1) /
        (totalPathLength (create_graph players) v : ℚ) else 0) = 1
    rw [clique_totalPathLength hE' hv']
    rw [if_pos (by omega)]
    rw [Nat.cast_sub (by omega), Nat.cast_one]
    refine div_self ?_
    have hgt : (1 : ℚ) < ((create_graph players).node_count : ℚ) := by
      exact_mod_cast (by omega : 1 < (create_graph players).node_count)
    linarith

/-- Witness for C8 (amended): the two-record single-team input gives one
component (and score `1` everywhere). -/
theorem single_clique_scores_witness :
    find_connected_components (create_graph pairRecords) = 1 :=
  (single_clique_scores pairRecords "X" (by decide) (by decide) (by decide)).1
